import Mathlib

/-!
Shallow embedding of the StringZilla binding layer
(src/stringzilla/pybind11.cpp): slice resolution, view and subspan
construction, the search-provider wrappers and the split / splitlines
engine.  Byte buffers are lists of naturals; machine size_t casts are
modeled with explicit arithmetic modulo 2^64.  The search kernels live
in stringzilla.h, which is not part of the visible sources, so they are
modeled from the specification (section 4.3) and marked as such.
-/

abbrev Byte := Nat

/-- Constant ssize_max_k from the source: the largest ssize_t value. -/
def ssize_max_k : Nat := 2 ^ 63 - 1

/-- Constant size_max_k from the source: the largest size_t value. -/
def size_max_k : Nat := 2 ^ 64 - 1

/-- Error kinds raised by the binding layer. -/
inductive Err where
  | invalidArgument
  | outOfRange
  deriving DecidableEq

/-- Result of slice resolution, mirroring index_span_t. -/
structure index_span_t where
  offset : Nat
  length : Nat
  deriving DecidableEq

/-- View into a buffer, mirroring span_t: the pointer is modeled as the
offset of the view start from the buffer base. -/
structure span_t where
  off : Nat
  len : Nat
  deriving DecidableEq

/-- Embedding of unsigned_slice (pybind11.cpp lines 75-82).  Negative
start or stop raise invalid_argument; both are clamped from above to
length; the returned length is the C++ expression
static_cast of (end - start) to size_t, i.e. the signed difference
reduced modulo 2^64 (negative differences wrap around). -/
def unsigned_slice (length : Nat) (start stop : Int) : Except Err index_span_t :=
  if start < 0 ∨ stop < 0 then .error .invalidArgument
  else
    let start2 := min start (length : Int)
    let stop2 := min stop (length : Int)
    .ok ⟨start2.toNat, ((stop2 - start2) % (2 ^ 64 : Int)).toNat⟩

/-- Embedding of unsigned_offset (pybind11.cpp lines 84-95).  Note the
non-negative branch only rejects idx strictly greater than length, and
the negative branch returns length + idx via size_t wraparound, which
equals length - (-idx) here. -/
def unsigned_offset (length : Nat) (idx : Int) : Except Err Nat :=
  if 0 ≤ idx then
    if length < idx.toNat then .error .outOfRange else .ok idx.toNat
  else
    if length < (-idx).toNat then .error .outOfRange else .ok (length - (-idx).toNat)

/-- Bytes denoted by a span over a given base buffer. -/
def spanContent (base : List Byte) (s : span_t) : List Byte :=
  (base.drop s.off).take s.len

/-- Embedding of py_span_t::after_n: the suffix starting at offset, or
the empty span when offset is not below the length (the C++ code
returns a null span there; we use offset 0, length 0, with the same
empty content). -/
def after_n (totalLen offset : Nat) : span_t :=
  if offset < totalLen then ⟨offset, totalLen - offset⟩ else ⟨0, 0⟩

/-- Modelled from the spec: find_byte of the search provider
(stringzilla.h is outside the visible sources).  Returns the offset of
the first occurrence of the byte, or the length of the haystack as a
sentinel when the byte does not occur. -/
def find_char : List Byte → Byte → Nat
  | [], _ => 0
  | x :: t, c => if x = c then 0 else 1 + find_char t c

/-- Modelled from the spec: count_byte of the search provider.  Counts
the occurrences of a byte in the haystack. -/
def count_char : List Byte → Byte → Nat
  | [], _ => 0
  | x :: t, c => (if x = c then 1 else 0) + count_char t c

/-- Boolean test that the first list starts the second one. -/
def isPre : List Byte → List Byte → Bool
  | [], _ => true
  | _ :: _, [] => false
  | a :: n, b :: h => a == b && isPre n h

/-- Modelled from the spec: find_sequence of the search provider.
Returns the offset of the first occurrence of the pattern, or the
length of the haystack as a sentinel when the pattern does not occur. -/
def find_seq : List Byte → List Byte → Nat
  | [], _ => 0
  | x :: t, n => if isPre n (x :: t) then 0 else 1 + find_seq t n

/-- Modelled from the spec: the non-overlapping walk of count_sequence,
skipping past each located match; the fuel argument bounds recursion
and is always sufficient for non-empty patterns. -/
def count_seq_go : Nat → List Byte → List Byte → Nat
  | 0, _, _ => 0
  | fuel + 1, h, n =>
    let off := find_seq h n
    if off = h.length then 0 else 1 + count_seq_go fuel (h.drop (off + n.length)) n

/-- Modelled from the spec: count_sequence of the search provider.
With overlap every valid start position is counted independently;
without overlap matches are counted by skipping past each one. -/
def count_seq (h n : List Byte) (overlap : Bool) : Nat :=
  if overlap then (List.range (h.length + 1)).countP (fun i => isPre n (h.drop i))
  else count_seq_go (h.length + 1) h n

/-- Embedding of the loop of py_span_t::splitlines (lines 270-275): the
iteration count is fixed up front; each step finds the next separator
in the remaining suffix, emits a part of that width (plus one byte when
line breaks are kept) and advances past the separator.  Returns the
emitted parts and the final cursor. -/
def splitlinesLoop (text : List Byte) (sep : Byte) (keep : Bool) :
    Nat → Nat → List span_t × Nat
  | 0, lastStart => ([], lastStart)
  | i + 1, lastStart =>
    let remaining := after_n text.length lastStart
    let offInRem := find_char (spanContent text remaining) sep
    let part : span_t := ⟨lastStart, offInRem + (if keep then 1 else 0)⟩
    let rest := splitlinesLoop text sep keep i (lastStart + offInRem + 1)
    (part :: rest.1, rest.2)

/-- Embedding of py_span_t::splitlines (lines 265-278).  The vector is
sized to min (k + 1) maxsplit where k counts the separators; the loop
fills all slots but the last, which stays value-initialized (an empty
span); the final statement writes the tail at index k unconditionally.
When maxsplit is at most k that index is out of the vector bounds: the
C++ write is undefined behavior, and the model keeps the in-bounds
state by making the write a no-op there (List.set ignores an index past
the end). -/
def splitlines (text : List Byte) (keep : Bool) (sep : Byte) (maxsplit : Nat) : List span_t :=
  let k := count_char text sep
  let n := min (k + 1) maxsplit
  let body := splitlinesLoop text sep keep (n - 1) 0
  let vec := body.1 ++ List.replicate (n - (n - 1)) (⟨0, 0⟩ : span_t)
  vec.set k (after_n text.length body.2)

/-- Guard of the delegation branch of py_span_t::split (line 282): the
separator is one byte long and maxsplit equals ssize_max_k.  Note the
comparison is against ssize_max_k while the default maxsplit installed
by the binding (line 340) is size_max_k. -/
def split_fast_path (sep : List Byte) (maxsplit : Nat) : Bool :=
  decide (sep.length = 1) && decide (maxsplit = ssize_max_k)

/-- Embedding of the loop of py_span_t::split (lines 287-295).  The
fuel argument bounds recursion; each executed iteration advances the
cursor by at least the separator length, so fuel text.length + 1 is
sufficient whenever the separator is non-empty.  Returns the emitted
parts, the final will_continue flag and the final cursor. -/
def splitLoop (text sep : List Byte) (keep : Bool) (maxsplit : Nat) :
    Nat → Nat → Nat → Bool → List span_t × Bool × Nat
  | 0, lastStart, _, wc => ([], wc, lastStart)
  | fuel + 1, lastStart, nparts, wc =>
    if lastStart < text.length ∧ nparts + 1 < maxsplit then
      let remaining := after_n text.length lastStart
      let offInRem := find_seq (spanContent text remaining) sep
      let wc2 := offInRem != remaining.len
      let partLen := offInRem + sep.length * (if keep then 1 else 0) * (if wc2 then 1 else 0)
      let rest := splitLoop text sep keep maxsplit fuel
          (lastStart + offInRem + sep.length) (nparts + 1) wc2
      ((⟨lastStart, partLen⟩ : span_t) :: rest.1, rest.2)
    else ([], wc, lastStart)

/-- Embedding of py_span_t::split (lines 280-300): the single-byte
fast path delegates to splitlines; otherwise the loop runs and, when
the last located match found a separator, one trailing part is
appended. -/
def split (text sep : List Byte) (maxsplit : Nat) (keep : Bool) : List span_t :=
  if split_fast_path sep maxsplit then splitlines text keep sep.headI maxsplit
  else
    let r := splitLoop text sep keep maxsplit (text.length + 1) 0 0 true
    if r.2.1 then r.1 ++ [after_n text.length r.2.2] else r.1

/-- Embedding of py_spans_t::at (lines 219-221): the index is resolved
by unsigned_offset against the part count and then used to read the
parts vector.  A resolved offset equal to the part count is past the
vector end; the C++ read is undefined behavior, modeled by the none
result of List.get?. -/
def spans_at (parts : List span_t) (i : Int) : Except Err (Option span_t) :=
  match unsigned_offset parts.length i with
  | .error e => .error e
  | .ok o => .ok (parts.get? o)

/-- Object graph of views: a root owner (py_str_t or py_file_t, which
hold the buffer) or a subspan (py_subspan_t) holding a shared reference
to the view it was created from, plus its span within the root
buffer. -/
inductive PyView where
  | str (buffer : List Byte)
  | subspanOf (parent : PyView) (s : span_t)
  deriving DecidableEq

/-- Length of a view, mirroring the len field. -/
def viewLen : PyView → Nat
  | .str b => b.length
  | .subspanOf _ s => s.len

/-- Start of a view as an offset from the root buffer base, mirroring
the ptr field. -/
def viewOff : PyView → Nat
  | .str _ => 0
  | .subspanOf _ s => s.off

/-- The shared owner reference carried by a view: a subspan holds the
view it was constructed from (the shared_from_this argument of
make_shared in py_span_t::sub); a root holds none. -/
def parentOf : PyView → Option PyView
  | .str _ => none
  | .subspanOf p _ => some p

/-- The ultimate root owner reached by following parent references. -/
def rootOwnerOf : PyView → PyView
  | .str b => .str b
  | .subspanOf p _ => rootOwnerOf p

/-- Whether a view is a root owner rather than an intermediate subspan. -/
def isRootOwner : PyView → Bool
  | .str _ => true
  | .subspanOf _ _ => false

/-- Embedding of py_span_t::sub (lines 302-305): resolve the slice
against the view length, then build a subspan whose parent reference is
the view itself and whose span starts at ptr + offset. -/
def PyView.sub (v : PyView) (start stop : Int) : Except Err PyView :=
  match unsigned_slice (viewLen v) start stop with
  | .error e => .error e
  | .ok isp => .ok (.subspanOf v ⟨viewOff v + isp.offset, isp.length⟩)

/-- Embedding of py_span_t::contains (lines 235-243): an empty needle
answers true before any slicing; otherwise the slice is resolved, the
search provider locates the needle and the sentinel is compared against
the stored slice length. -/
def py_contains (text needle : List Byte) (start stop : Int) : Except Err Bool :=
  if needle.length = 0 then .ok true
  else
    match unsigned_slice text.length start stop with
    | .error e => .error e
    | .ok isp =>
      let part : span_t := ⟨isp.offset, isp.length⟩
      let c := spanContent text part
      let offFound := if needle.length = 1 then find_char c needle.headI else find_seq c needle
      .ok (decide ¬(offFound = part.len))

/-- Embedding of py_span_t::find (lines 245-253): an empty needle
answers 0 before any slicing; otherwise the offset of the first match
inside the resolved slice is returned, or -1 on the sentinel. -/
def py_find (text needle : List Byte) (start stop : Int) : Except Err Int :=
  if needle.length = 0 then .ok 0
  else
    match unsigned_slice text.length start stop with
    | .error e => .error e
    | .ok isp =>
      let part : span_t := ⟨isp.offset, isp.length⟩
      let c := spanContent text part
      let offFound := if needle.length = 1 then find_char c needle.headI else find_seq c needle
      .ok (if offFound = part.len then (-1 : Int) else (offFound : Int))

/-- Embedding of py_span_t::count (lines 255-263): an empty needle
answers 0 before any slicing; otherwise the provider count over the
resolved slice is returned. -/
def py_count (text needle : List Byte) (start stop : Int) (overlap : Bool) : Except Err Int :=
  if needle.length = 0 then .ok 0
  else
    match unsigned_slice text.length start stop with
    | .error e => .error e
    | .ok isp =>
      let part : span_t := ⟨isp.offset, isp.length⟩
      let c := spanContent text part
      let r := if needle.length = 1 then count_char c needle.headI else count_seq c needle overlap
      .ok (r : Int)

/-- Concatenation of a list of chunks with a separator between
consecutive chunks; used to state that split results reconstruct the
original bytes.  Proved equal to List.intercalate below. -/
def joinWith (sep : List Byte) : List (List Byte) → List Byte
  | [] => []
  | [x] => x
  | x :: y :: t => x ++ sep ++ joinWith sep (y :: t)


theorem joinWith_eq_intercalate (sep : List Byte) : ∀ l, joinWith sep l = List.intercalate sep l
  | [] => by simp [joinWith, List.intercalate, List.intersperse]
  | [x] => by simp [joinWith, List.intercalate, List.intersperse]
  | x :: y :: t => by
    have ih := joinWith_eq_intercalate sep (y :: t)
    simp [joinWith, List.intercalate, List.intersperse] at ih ⊢
    simp [ih, List.append_assoc]

theorem spanContent_after_n (text : List Byte) (s : Nat) :
    spanContent text (after_n text.length s) = text.drop s := by
  unfold after_n spanContent
  by_cases h : s < text.length
  · rw [if_pos h]
    show (text.drop s).take (text.length - s) = text.drop s
    rw [← List.length_drop s text, List.take_length]
  · rw [if_neg h]
    show (text.drop 0).take 0 = text.drop s
    rw [List.take_zero, List.drop_eq_nil_of_le (Nat.le_of_not_lt h)]

theorem find_char_le (l : List Byte) (c : Byte) : find_char l c ≤ l.length := by
  induction l with
  | nil => exact Nat.le_refl 0
  | cons x t ih =>
    rw [find_char]
    by_cases h : x = c
    · rw [if_pos h]; exact Nat.zero_le _
    · rw [if_neg h, List.length_cons]; omega

theorem find_char_of_notMem {l : List Byte} {c : Byte} (h : c ∉ l) : find_char l c = l.length := by
  induction l with
  | nil => rfl
  | cons x t ih =>
    rw [List.mem_cons, not_or] at h
    rw [find_char, if_neg (fun hh => h.1 hh.symm), ih h.2, List.length_cons]
    omega

theorem count_char_eq_zero {l : List Byte} {c : Byte} : count_char l c = 0 ↔ c ∉ l := by
  induction l with
  | nil => simp [count_char]
  | cons x t ih =>
    rw [count_char, List.mem_cons]
    by_cases h : x = c
    · simp [h]
    · simp only [if_neg h, Nat.zero_add, ih, not_or]
      constructor
      · exact fun hh => ⟨fun he => h he.symm, hh⟩
      · exact fun hh => hh.2

theorem count_char_le (l : List Byte) (c : Byte) : count_char l c ≤ l.length := by
  induction l with
  | nil => exact Nat.le_refl 0
  | cons x t ih =>
    rw [count_char, List.length_cons]
    by_cases h : x = c
    · rw [if_pos h]; omega
    · rw [if_neg h]; omega

theorem find_char_split {l : List Byte} {c : Byte} (h : c ∈ l) :
    find_char l c < l.length ∧
    l.take (find_char l c) ++ c :: l.drop (find_char l c + 1) = l ∧
    count_char (l.drop (find_char l c + 1)) c + 1 = count_char l c := by
  induction l with
  | nil => cases h
  | cons x t ih =>
    by_cases hx : x = c
    · subst hx
      rw [find_char, if_pos rfl]
      refine ⟨by simp, by simp, ?_⟩
      rw [count_char, if_pos rfl]
      show count_char ((x :: t).drop 1) x + 1 = 1 + count_char t x
      rw [List.drop_succ_cons, List.drop_zero]
      omega
    · have hmem : c ∈ t := by
        rcases List.mem_cons.mp h with h1 | h1
        · exact absurd h1.symm hx
        · exact h1
      obtain ⟨ih1, ih2, ih3⟩ := ih hmem
      rw [find_char, if_neg hx]
      refine ⟨by rw [List.length_cons]; omega, ?_, ?_⟩
      · show (x :: t).take (1 + find_char t c) ++ c :: (x :: t).drop (1 + find_char t c + 1) = x :: t
        rw [Nat.add_comm 1 (find_char t c)]
        show (x :: t).take (find_char t c).succ ++ c :: (x :: t).drop (find_char t c + 1 + 1) = x :: t
        rw [List.take_succ_cons, List.drop_succ_cons]
        simp only [List.cons_append]
        rw [ih2]
      · show count_char ((x :: t).drop (1 + find_char t c + 1)) c + 1 = count_char (x :: t) c
        have he : 1 + find_char t c + 1 = (find_char t c + 1) + 1 := by omega
        rw [he, List.drop_succ_cons, ih3, count_char, if_neg hx]
        omega

theorem isPre_iff {n h : List Byte} : isPre n h = true ↔ n <+: h := by
  induction n generalizing h with
  | nil => simp [isPre]
  | cons a as ih =>
    cases h with
    | nil => simp [isPre]
    | cons b bs =>
      rw [isPre]
      simp only [Bool.and_eq_true, beq_iff_eq, ih, List.cons_prefix_cons]

theorem find_seq_le (h n : List Byte) : find_seq h n ≤ h.length := by
  induction h with
  | nil => exact Nat.le_refl 0
  | cons x t ih =>
    rw [find_seq]
    by_cases hp : isPre n (x :: t)
    · rw [if_pos hp]; exact Nat.zero_le _
    · rw [if_neg hp, List.length_cons]; omega

theorem find_seq_prefix_drop {h n : List Byte} (hlt : find_seq h n < h.length) :
    n <+: h.drop (find_seq h n) := by
  induction h with
  | nil => exact absurd hlt (by simp [find_seq])
  | cons x t ih =>
    rw [find_seq] at hlt ⊢
    by_cases hp : isPre n (x :: t)
    · rw [if_pos hp]
      exact isPre_iff.mp hp
    · rw [if_neg hp] at hlt ⊢
      rw [Nat.add_comm 1 (find_seq t n), List.drop_succ_cons]
      rw [List.length_cons] at hlt
      exact ih (by omega)

theorem find_seq_min {h n : List Byte} : ∀ j, j < find_seq h n → ¬ n <+: h.drop j := by
  induction h with
  | nil => intro j hj; rw [find_seq] at hj; omega
  | cons x t ih =>
    intro j hj
    rw [find_seq] at hj
    by_cases hp : isPre n (x :: t)
    · rw [if_pos hp] at hj; omega
    · rw [if_neg hp] at hj
      cases j with
      | zero =>
        rw [List.drop_zero]
        exact fun hc => hp (isPre_iff.mpr hc)
      | succ j2 =>
        rw [List.drop_succ_cons]
        exact ih j2 (by omega)

theorem infixCons {n : List Byte} {x : Byte} {t : List Byte} :
    n <:+: (x :: t) ↔ n <+: (x :: t) ∨ n <:+: t := by
  constructor
  · rintro ⟨s, u, hsu⟩
    cases s with
    | nil => exact Or.inl ⟨u, by simpa using hsu⟩
    | cons a s2 =>
      right
      refine ⟨s2, u, ?_⟩
      have := hsu
      simp only [List.cons_append] at this
      exact (List.cons_eq_cons.mp this).2
  · rintro (⟨u, hu⟩ | ⟨s, u, hsu⟩)
    · exact ⟨[], u, by simpa using hu⟩
    · exact ⟨x :: s, u, by simp [← hsu]⟩

theorem find_seq_lt_of_infix {h n : List Byte} (hn : n ≠ []) (hi : n <:+: h) :
    find_seq h n < h.length := by
  induction h with
  | nil =>
    exact absurd (List.eq_nil_of_infix_nil hi) hn
  | cons x t ih =>
    rw [find_seq]
    by_cases hp : isPre n (x :: t)
    · rw [if_pos hp, List.length_cons]; omega
    · rw [if_neg hp, List.length_cons]
      rcases infixCons.mp hi with hc | hc
      · exact absurd (isPre_iff.mpr hc) hp
      · have := ih hc
        omega

theorem infix_of_prefix_drop {n h : List Byte} {j : Nat} (hp : n <+: h.drop j) :
    n <:+: h := by
  obtain ⟨r, hr⟩ := hp
  exact ⟨h.take j, r, by rw [List.append_assoc, hr, List.take_append_drop]⟩

theorem find_seq_eq_length_iff {h n : List Byte} (hn : n ≠ []) :
    find_seq h n = h.length ↔ ¬ n <:+: h := by
  constructor
  · intro he hi
    have := find_seq_lt_of_infix hn hi
    omega
  · intro hni
    have hle := find_seq_le h n
    rcases Nat.lt_or_ge (find_seq h n) h.length with hlt | hge
    · exact absurd (infix_of_prefix_drop (find_seq_prefix_drop hlt)) hni
    · omega

theorem find_seq_split {h n : List Byte} (hlt : find_seq h n < h.length) :
    h.take (find_seq h n) ++ n ++ h.drop (find_seq h n + n.length) = h ∧
    find_seq h n + n.length ≤ h.length := by
  obtain ⟨r, hr⟩ := find_seq_prefix_drop hlt
  have hdrop : h.drop (find_seq h n + n.length) = r := by
    have hc : h.drop (find_seq h n + n.length)
        = (h.drop (find_seq h n)).drop n.length := by
      rw [List.drop_drop, Nat.add_comm]
    rw [hc, ← hr, List.drop_left]
  have hlen : n.length + r.length = h.length - find_seq h n := by
    have h3 := congrArg List.length hr
    rw [List.length_append, List.length_drop] at h3
    omega
  constructor
  · rw [List.append_assoc, hdrop, hr, List.take_append_drop]
  · omega

theorem find_seq_single (l : List Byte) (c : Byte) : find_seq l [c] = find_char l c := by
  induction l with
  | nil => rfl
  | cons x t ih =>
    rw [find_seq, find_char]
    by_cases h : x = c
    · rw [if_pos (by simp [isPre, h]), if_pos h]
    · rw [if_neg (by simp [isPre]; exact fun hh => h hh.symm), if_neg h, ih]

theorem set_append_last {α : Type} (l : List α) (x y : α) :
    (l ++ [x]).set l.length y = l ++ [y] := by
  induction l with
  | nil => rfl
  | cons a t ih => simp only [List.cons_append, List.length_cons, List.set_cons_succ, ih]

theorem set_append_len {α : Type} (l : List α) (x y : α) (k : Nat) (h : l.length = k) :
    (l ++ [x]).set k y = l ++ [y] := by
  subst h
  exact set_append_last l x y

theorem joinWith_cons (sep x : List Byte) {L : List (List Byte)} (h : L ≠ []) :
    joinWith sep (x :: L) = x ++ sep ++ joinWith sep L := by
  cases L with
  | nil => exact absurd rfl h
  | cons y t => rfl

theorem splitlinesLoop_length (text : List Byte) (c : Byte) (keep : Bool) :
    ∀ j s, (splitlinesLoop text c keep j s).1.length = j := by
  intro j
  induction j with
  | zero => intro s; rfl
  | succ i ih =>
    intro s
    rw [splitlinesLoop]
    simp only [List.length_cons, ih]

theorem splitlinesLoop_pos (text : List Byte) (c : Byte) (keep : Bool) :
    ∀ j s, s ≤ text.length → count_char (text.drop s) c = j →
      (splitlinesLoop text c keep j s).2 ≤ text.length ∧
      count_char (text.drop (splitlinesLoop text c keep j s).2) c = 0 := by
  intro j
  induction j with
  | zero =>
    intro s hs hc
    exact ⟨hs, hc⟩
  | succ i ih =>
    intro s hs hc
    rw [splitlinesLoop]
    simp only [spanContent_after_n]
    have hmem : c ∈ text.drop s := by
      by_contra hnot
      rw [count_char_eq_zero.mpr hnot] at hc
      omega
    obtain ⟨hlt, _, hcount⟩ := find_char_split hmem
    rw [List.length_drop] at hlt
    have hadd : s + (find_char (text.drop s) c + 1) = s + find_char (text.drop s) c + 1 := by
      omega
    have hdd : (text.drop s).drop (find_char (text.drop s) c + 1)
        = text.drop (s + find_char (text.drop s) c + 1) := by
      rw [List.drop_drop, hadd]
    rw [hdd] at hcount
    exact ih (s + find_char (text.drop s) c + 1) (by omega) (by omega)

theorem splitlines_eq (text : List Byte) (c : Byte) (keep : Bool) (maxsplit : Nat)
    (h : count_char text c + 1 ≤ maxsplit) :
    splitlines text keep c maxsplit =
      (splitlinesLoop text c keep (count_char text c) 0).1
        ++ [after_n text.length (splitlinesLoop text c keep (count_char text c) 0).2] := by
  have hn : min (count_char text c + 1) maxsplit = count_char text c + 1 := Nat.min_eq_left h
  have h1 : count_char text c + 1 - count_char text c = 1 := by omega
  have hlen := splitlinesLoop_length text c keep (count_char text c) 0
  simp only [splitlines, hn, Nat.add_sub_cancel, h1, List.replicate_one]
  rw [set_append_len _ _ _ _ hlen]

theorem splitlinesLoop_content (text : List Byte) (c : Byte) :
    ∀ j s, s ≤ text.length → count_char (text.drop s) c = j →
      joinWith [c]
        ((splitlinesLoop text c false j s).1.map (spanContent text)
          ++ [spanContent text (after_n text.length (splitlinesLoop text c false j s).2)])
        = text.drop s := by
  intro j
  induction j with
  | zero =>
    intro s hs hc
    show joinWith [c] ([] ++ [spanContent text (after_n text.length s)]) = text.drop s
    rw [List.nil_append, spanContent_after_n]
    rfl
  | succ i ih =>
    intro s hs hc
    have hmem : c ∈ text.drop s := by
      by_contra hnot
      rw [count_char_eq_zero.mpr hnot] at hc
      omega
    obtain ⟨hlt, hsplit, hcount⟩ := find_char_split hmem
    rw [List.length_drop] at hlt
    have hadd : s + (find_char (text.drop s) c + 1) = s + find_char (text.drop s) c + 1 := by
      omega
    have hdd : (text.drop s).drop (find_char (text.drop s) c + 1)
        = text.drop (s + find_char (text.drop s) c + 1) := by
      rw [List.drop_drop, hadd]
    rw [hdd] at hcount
    have ihr := ih (s + find_char (text.drop s) c + 1) (by omega) (by omega)
    simp only [spanContent_after_n] at ihr
    rw [splitlinesLoop]
    simp only [spanContent_after_n, List.map_cons, List.cons_append]
    rw [joinWith_cons _ _ (by simp)]
    have hspan : spanContent text
        (⟨s, find_char (text.drop s) c + (if false then 1 else 0)⟩ : span_t)
        = (text.drop s).take (find_char (text.drop s) c) := rfl
    rw [hspan, ihr, List.append_assoc, List.singleton_append, ← hdd, hsplit]

theorem splitlines_reconstruction (text : List Byte) (c : Byte) (maxsplit : Nat)
    (h : count_char text c + 1 ≤ maxsplit) :
    List.intercalate [c] ((splitlines text false c maxsplit).map (spanContent text)) = text := by
  rw [splitlines_eq text c false maxsplit h, ← joinWith_eq_intercalate]
  have hcontent := splitlinesLoop_content text c (count_char text c) 0 (Nat.zero_le _)
    (by rw [List.drop_zero])
  rw [List.drop_zero] at hcontent
  simp only [List.map_append, List.map_cons, List.map_nil] at hcontent ⊢
  exact hcontent

theorem splitLoop_exit (text sep : List Byte) (keep : Bool) (maxsplit : Nat)
    (fuel s nparts : Nat) (wc : Bool) (h : ¬(s < text.length ∧ nparts + 1 < maxsplit)) :
    splitLoop text sep keep maxsplit fuel s nparts wc = ([], wc, s) := by
  cases fuel with
  | zero => rfl
  | succ f => rw [splitLoop, if_neg h]

theorem splitLoop_content (text sep : List Byte) (maxsplit : Nat) (hsep : sep ≠ []) :
    ∀ fuel s nparts wc, s ≤ text.length → text.length - s < fuel →
      nparts + (text.length - s) + 2 ≤ maxsplit →
      (joinWith sep
          ((splitLoop text sep false maxsplit fuel s nparts wc).1.map (spanContent text)
            ++ (if (splitLoop text sep false maxsplit fuel s nparts wc).2.1
                then [text.drop (splitLoop text sep false maxsplit fuel s nparts wc).2.2]
                else []))
        = text.drop s) ∧
      ((splitLoop text sep false maxsplit fuel s nparts wc).1.map (spanContent text)
          ++ (if (splitLoop text sep false maxsplit fuel s nparts wc).2.1
              then [text.drop (splitLoop text sep false maxsplit fuel s nparts wc).2.2]
              else []) ≠ [] ∨ wc = false) := by
  intro fuel
  induction fuel with
  | zero =>
    intro s nparts wc hs hfuel hcap
    omega
  | succ f ihf =>
    intro s nparts wc hs hfuel hcap
    by_cases hcond : s < text.length ∧ nparts + 1 < maxsplit
    · rw [splitLoop, if_pos hcond]
      simp only [spanContent_after_n]
      have hlenr : (after_n text.length s).len = text.length - s := by
        simp only [after_n, if_pos hcond.1]
      rw [hlenr]
      have hldrop : (text.drop s).length = text.length - s := List.length_drop s text
      by_cases hfound : find_seq (text.drop s) sep = text.length - s
      · -- the pattern was not found in the remaining suffix
        rw [hfound, bne_self_eq_false]
        simp only [Bool.false_eq_true, if_false, Nat.mul_zero, Nat.zero_mul, Nat.add_zero]
        have hexit : splitLoop text sep false maxsplit f
            (s + (text.length - s) + sep.length) (nparts + 1) false = ([], false, s + (text.length - s) + sep.length) := by
          apply splitLoop_exit
          intro hcc
          have := hcc.1
          omega
        rw [hexit]
        simp only [List.map_cons, List.map_nil, List.cons_append, List.nil_append,
          Bool.false_eq_true, if_false]
        constructor
        · show joinWith sep [spanContent text ⟨s, text.length - s⟩] = text.drop s
          show spanContent text ⟨s, text.length - s⟩ = text.drop s
          rw [spanContent, ← hldrop, List.take_length]
        · exact Or.inl (by simp)
      · -- the pattern was found
        have hle := find_seq_le (text.drop s) sep
        rw [hldrop] at hle
        have hlt : find_seq (text.drop s) sep < (text.drop s).length := by omega
        obtain ⟨hsplit, htot⟩ := find_seq_split hlt
        rw [hldrop] at htot
        rw [bne_iff_ne.mpr hfound]
        simp only [Bool.false_eq_true, if_false, if_true, Nat.mul_zero, Nat.zero_mul,
          Nat.add_zero]
        have hseplen : 1 ≤ sep.length := by
          cases sep with
          | nil => exact absurd rfl hsep
          | cons a t => simp
        have hs2 : s + find_seq (text.drop s) sep + sep.length ≤ text.length := by omega
        have ihr := ihf (s + find_seq (text.drop s) sep + sep.length) (nparts + 1) true
          hs2 (by omega) (by omega)
        obtain ⟨ih1, ih2⟩ := ihr
        have ih2ne : (splitLoop text sep false maxsplit f
            (s + find_seq (text.drop s) sep + sep.length) (nparts + 1) true).1.map (spanContent text)
            ++ (if (splitLoop text sep false maxsplit f
                (s + find_seq (text.drop s) sep + sep.length) (nparts + 1) true).2.1
                then [text.drop (splitLoop text sep false maxsplit f
                  (s + find_seq (text.drop s) sep + sep.length) (nparts + 1) true).2.2]
                else []) ≠ [] := by
          rcases ih2 with h2 | h2
          · exact h2
          · exact absurd h2 (by simp)
        simp only [List.map_cons, List.cons_append]
        rw [joinWith_cons _ _ ih2ne]
        constructor
        · rw [ih1]
          have hdd : text.drop (s + find_seq (text.drop s) sep + sep.length)
              = (text.drop s).drop (find_seq (text.drop s) sep + sep.length) := by
            rw [List.drop_drop]
            have : s + (find_seq (text.drop s) sep + sep.length)
                = s + find_seq (text.drop s) sep + sep.length := by omega
            rw [this]
          rw [hdd]
          show (text.drop s).take (find_seq (text.drop s) sep) ++ sep
              ++ (text.drop s).drop (find_seq (text.drop s) sep + sep.length) = text.drop s
          exact hsplit
        · exact Or.inl (by simp)
    · rw [splitLoop_exit text sep false maxsplit (f + 1) s nparts wc hcond]
      have hsl : s = text.length := by omega
      cases wc with
      | false =>
        simp only [Bool.false_eq_true, if_false, List.map_nil, List.nil_append]
        constructor
        · show joinWith sep [] = text.drop s
          rw [List.drop_eq_nil_of_le (by omega)]
          rfl
        · exact Or.inr (by simp)
      | true =>
        simp only [if_true, List.map_nil, List.nil_append]
        constructor
        · show joinWith sep [text.drop s] = text.drop s
          rfl
        · exact Or.inl (by simp)

theorem split_reconstruction (text sep : List Byte) (maxsplit : Nat)
    (hsep : sep ≠ []) (hcap : text.length + 2 ≤ maxsplit) :
    List.intercalate sep ((split text sep maxsplit false).map (spanContent text)) = text := by
  rw [← joinWith_eq_intercalate]
  by_cases hfast : split_fast_path sep maxsplit = true
  · rw [split, if_pos hfast]
    have hsl : sep.length = 1 := by
      unfold split_fast_path at hfast
      simp only [Bool.and_eq_true, decide_eq_true_eq] at hfast
      exact hfast.1
    obtain ⟨a, rfl⟩ : ∃ a, sep = [a] := by
      cases sep with
      | nil => simp at hsl
      | cons a t =>
        cases t with
        | nil => exact ⟨a, rfl⟩
        | cons b u => simp at hsl
    have hcc : count_char text a + 1 ≤ maxsplit := by
      have := count_char_le text a
      omega
    rw [joinWith_eq_intercalate]
    show List.intercalate [a] ((splitlines text false a maxsplit).map (spanContent text)) = text
    exact splitlines_reconstruction text a maxsplit hcc
  · rw [split, if_neg hfast]
    have hD := splitLoop_content text sep maxsplit hsep (text.length + 1) 0 0 true
      (Nat.zero_le _) (by omega) (by omega)
    obtain ⟨hD1, _⟩ := hD
    rw [List.drop_zero] at hD1
    by_cases hflag : (splitLoop text sep false maxsplit (text.length + 1) 0 0 true).2.1 = true
    · rw [if_pos hflag]
      rw [if_pos hflag] at hD1
      simp only [List.map_append, List.map_cons, List.map_nil, spanContent_after_n]
      exact hD1
    · rw [if_neg hflag]
      rw [if_neg hflag] at hD1
      rw [List.append_nil] at hD1
      exact hD1

theorem splitLoop_single (text : List Byte) (c : Byte) (keep : Bool) (maxsplit : Nat) :
    ∀ j s nparts fuel, s ≤ text.length → count_char (text.drop s) c = j →
      nparts + j + 2 ≤ maxsplit → text.length - s < fuel →
      splitLoop text [c] keep maxsplit fuel s nparts true =
        (if (splitlinesLoop text c keep j s).2 < text.length
         then ((splitlinesLoop text c keep j s).1
                ++ [(⟨(splitlinesLoop text c keep j s).2,
                      text.length - (splitlinesLoop text c keep j s).2⟩ : span_t)],
               false, text.length + 1)
         else ((splitlinesLoop text c keep j s).1, true, (splitlinesLoop text c keep j s).2)) := by
  intro j
  induction j with
  | zero =>
    intro s nparts fuel hs hc hcap hfuel
    show splitLoop text [c] keep maxsplit fuel s nparts true =
      (if s < text.length
       then ([(⟨s, text.length - s⟩ : span_t)], false, text.length + 1)
       else ([], true, s))
    by_cases hsl : s < text.length
    · rw [if_pos hsl]
      cases fuel with
      | zero => omega
      | succ f =>
        rw [splitLoop, if_pos ⟨hsl, by omega⟩]
        simp only [spanContent_after_n, find_seq_single]
        have hnm : c ∉ text.drop s := by
          by_contra hmem
          rw [count_char_eq_zero] at hc
          exact hc hmem
        have hfc : find_char (text.drop s) c = text.length - s := by
          rw [find_char_of_notMem hnm, List.length_drop]
        have hlenr : (after_n text.length s).len = text.length - s := by
          simp only [after_n, if_pos hsl]
        rw [hfc, hlenr, bne_self_eq_false]
        simp only [Bool.false_eq_true, if_false, Nat.mul_zero, Nat.add_zero]
        have hexit := splitLoop_exit text [c] keep maxsplit f
          (s + (text.length - s) + [c].length) (nparts + 1) false (by
            intro hcc
            have := hcc.1
            simp only [List.length_cons, List.length_nil] at this
            omega)
        rw [hexit]
        have hsum : s + (text.length - s) + [c].length = text.length + 1 := by
          simp only [List.length_cons, List.length_nil]
          omega
        rw [hsum]
    · rw [if_neg hsl]
      exact splitLoop_exit text [c] keep maxsplit fuel s nparts true (by
        intro hcc
        exact hsl hcc.1)
  | succ i ih =>
    intro s nparts fuel hs hc hcap hfuel
    have hmem : c ∈ text.drop s := by
      by_contra hnot
      rw [count_char_eq_zero.mpr hnot] at hc
      omega
    obtain ⟨hlt, _, hcount⟩ := find_char_split hmem
    rw [List.length_drop] at hlt
    have hsl : s < text.length := by omega
    cases fuel with
    | zero => omega
    | succ f =>
      rw [splitLoop, if_pos ⟨hsl, by omega⟩]
      simp only [spanContent_after_n, find_seq_single]
      have hlenr : (after_n text.length s).len = text.length - s := by
        simp only [after_n, if_pos hsl]
      rw [hlenr]
      have hne : find_char (text.drop s) c ≠ text.length - s := by omega
      rw [bne_iff_ne.mpr hne]
      simp only [if_true, Nat.mul_one, Nat.one_mul, List.length_cons, List.length_nil,
        Nat.zero_add]
      have hadd : s + (find_char (text.drop s) c + 1) = s + find_char (text.drop s) c + 1 := by
        omega
      have hdd : (text.drop s).drop (find_char (text.drop s) c + 1)
          = text.drop (s + find_char (text.drop s) c + 1) := by
        rw [List.drop_drop, hadd]
      rw [hdd] at hcount
      have ihr := ih (s + find_char (text.drop s) c + 1) (nparts + 1) f
        (by omega) (by omega) (by omega) (by omega)
      rw [ihr]
      rw [splitlinesLoop]
      simp only [spanContent_after_n]
      by_cases htail :
          (splitlinesLoop text c keep i (s + find_char (text.drop s) c + 1)).2 < text.length
      · rw [if_pos htail, if_pos htail]
        simp only [List.cons_append]
      · rw [if_neg htail, if_neg htail]

theorem split_single_eq (text : List Byte) (c : Byte) (keep : Bool)
    (h : text.length + 2 ≤ size_max_k) :
    split text [c] size_max_k keep = splitlines text keep c size_max_k := by
  have hfast : split_fast_path [c] size_max_k = false := by
    unfold split_fast_path
    have hne : ¬(size_max_k = ssize_max_k) := by decide
    simp [hne]
  have hk := count_char_le text c
  have hsleq := splitlines_eq text c keep size_max_k (by omega)
  have hF := splitLoop_single text c keep size_max_k (count_char text c) 0 0 (text.length + 1)
    (Nat.zero_le _) (by rw [List.drop_zero]) (by omega) (by omega)
  simp only [split, hfast, Bool.false_eq_true, if_false]
  by_cases htail : (splitlinesLoop text c keep (count_char text c) 0).2 < text.length
  · rw [if_pos htail] at hF
    rw [hF, if_neg (show ¬(((splitlinesLoop text c keep (count_char text c) 0).1
        ++ [(⟨(splitlinesLoop text c keep (count_char text c) 0).2,
              text.length - (splitlinesLoop text c keep (count_char text c) 0).2⟩ : span_t)],
        false, text.length + 1) : List span_t × Bool × Nat).2.1 = true from Bool.false_ne_true)]
    rw [hsleq]
    have hafter : after_n text.length (splitlinesLoop text c keep (count_char text c) 0).2
        = ⟨(splitlinesLoop text c keep (count_char text c) 0).2,
           text.length - (splitlinesLoop text c keep (count_char text c) 0).2⟩ := by
      simp only [after_n, if_pos htail]
    rw [hafter]
  · rw [if_neg htail] at hF
    rw [hF, if_pos (show (((splitlinesLoop text c keep (count_char text c) 0).1, true,
        (splitlinesLoop text c keep (count_char text c) 0).2)
        : List span_t × Bool × Nat).2.1 = true from rfl)]
    rw [hsleq]

theorem drop_ends_mem {t : List Byte} {c : Byte} {s : Nat} (hs : s < (t ++ [c]).length) :
    c ∈ (t ++ [c]).drop s := by
  rw [List.length_append, List.length_cons, List.length_nil] at hs
  have hle : s ≤ t.length := by omega
  rw [List.drop_append_of_le_length hle]
  exact List.mem_append_right _ (List.mem_singleton.mpr rfl)

theorem split_trailing_empty (text t : List Byte) (c : Byte) (keep : Bool) (maxsplit : Nat)
    (hend : text = t ++ [c]) (hcap : text.length + 2 ≤ maxsplit) :
    (split text [c] maxsplit keep).getLast? = some ⟨0, 0⟩ := by
  have hk := count_char_le text c
  obtain ⟨hfin, hcnt⟩ := splitlinesLoop_pos text c keep (count_char text c) 0
    (Nat.zero_le _) (by rw [List.drop_zero])
  have hslen : (splitlinesLoop text c keep (count_char text c) 0).2 = text.length := by
    by_contra hne
    have hlt : (splitlinesLoop text c keep (count_char text c) 0).2 < text.length := by omega
    have hmem : c ∈ text.drop (splitlinesLoop text c keep (count_char text c) 0).2 := by
      rw [hend]
      exact drop_ends_mem (by rw [← hend]; exact hlt)
    exact (count_char_eq_zero.mp hcnt) hmem
  have hafter : after_n text.length (splitlinesLoop text c keep (count_char text c) 0).2
      = (⟨0, 0⟩ : span_t) := by
    rw [hslen]
    simp only [after_n, if_neg (Nat.lt_irrefl text.length)]
  have hsleq := splitlines_eq text c keep maxsplit (by omega)
  by_cases hfast : split_fast_path [c] maxsplit = true
  · rw [split, if_pos hfast]
    show (splitlines text keep c maxsplit).getLast? = some ⟨0, 0⟩
    rw [hsleq, hafter, List.getLast?_concat]
  · rw [split, if_neg hfast]
    have hF := splitLoop_single text c keep maxsplit (count_char text c) 0 0 (text.length + 1)
      (Nat.zero_le _) (by rw [List.drop_zero]) (by omega) (by omega)
    rw [if_neg (by omega : ¬(splitlinesLoop text c keep (count_char text c) 0).2 < text.length)]
      at hF
    rw [hF, if_pos (show (((splitlinesLoop text c keep (count_char text c) 0).1, true,
        (splitlinesLoop text c keep (count_char text c) 0).2)
        : List span_t × Bool × Nat).2.1 = true from rfl)]
    show ((splitlinesLoop text c keep (count_char text c) 0).1
        ++ [after_n text.length (splitlinesLoop text c keep (count_char text c) 0).2]).getLast?
        = some ⟨0, 0⟩
    rw [hafter, List.getLast?_concat]

theorem unsigned_slice_wf (length : Nat) (start stop : Int)
    (h0 : length < 2 ^ 64) (h2 : 0 ≤ start) (h3 : start ≤ stop) :
    unsigned_slice length start stop
      = .ok ⟨(min start (length : Int)).toNat,
             (min stop (length : Int)).toNat - (min start (length : Int)).toNat⟩ := by
  simp only [unsigned_slice]
  rw [if_neg (by omega)]
  have hmod : ((min stop (length : Int) - min start (length : Int)) % (2 ^ 64 : Int)).toNat
      = (min stop (length : Int)).toNat - (min start (length : Int)).toNat := by
    omega
  rw [hmod]

theorem py_find_ok (text needle : List Byte) (start stop : Int) (isp : index_span_t)
    (h1 : needle ≠ []) (hws : unsigned_slice text.length start stop = .ok isp)
    (hlen : (spanContent text ⟨isp.offset, isp.length⟩).length = isp.length) :
    (¬ needle <:+: spanContent text ⟨isp.offset, isp.length⟩ →
        py_find text needle start stop = .ok (-1)) ∧
    (needle <:+: spanContent text ⟨isp.offset, isp.length⟩ →
        ∃ r : Nat, py_find text needle start stop = .ok (r : Int) ∧
          needle <+: (spanContent text ⟨isp.offset, isp.length⟩).drop r ∧
          ∀ j, j < r → ¬ needle <+: (spanContent text ⟨isp.offset, isp.length⟩).drop j) := by
  have hlen0 : ¬ needle.length = 0 := by
    cases needle with
    | nil => exact absurd rfl h1
    | cons a t => simp
  have hoff : (if needle.length = 1
      then find_char (spanContent text ⟨isp.offset, isp.length⟩) needle.headI
      else find_seq (spanContent text ⟨isp.offset, isp.length⟩) needle)
      = find_seq (spanContent text ⟨isp.offset, isp.length⟩) needle := by
    by_cases hl1 : needle.length = 1
    · obtain ⟨a0, rfl⟩ : ∃ a0, needle = [a0] := List.length_eq_one.mp hl1
      rw [if_pos hl1, find_seq_single]
      rfl
    · rw [if_neg hl1]
  have hunf : py_find text needle start stop
      = .ok (if (if needle.length = 1
             then find_char (spanContent text ⟨isp.offset, isp.length⟩) needle.headI
             else find_seq (spanContent text ⟨isp.offset, isp.length⟩) needle) = isp.length
             then (-1 : Int)
             else Nat.cast (if needle.length = 1
             then find_char (spanContent text ⟨isp.offset, isp.length⟩) needle.headI
             else find_seq (spanContent text ⟨isp.offset, isp.length⟩) needle)) := by
    rw [py_find, if_neg hlen0, hws]
  rw [hoff] at hunf
  constructor
  · intro hni
    rw [hunf, if_pos (((find_seq_eq_length_iff h1).mpr hni).trans hlen)]
  · intro hi
    have hlt := find_seq_lt_of_infix h1 hi
    refine ⟨find_seq (spanContent text ⟨isp.offset, isp.length⟩) needle, ?_, ?_, ?_⟩
    · have hlt2 : find_seq (spanContent text ⟨isp.offset, isp.length⟩) needle < isp.length := by
        rw [hlen] at hlt
        exact hlt
      rw [hunf, if_neg (Nat.ne_of_lt hlt2)]
    · exact find_seq_prefix_drop hlt
    · exact fun j hj => find_seq_min j hj

/-- Helper: the content of a span whose bounds fit in the buffer has
exactly the stored length. -/
theorem spanContent_length_of_le {text : List Byte} {o l : Nat} (h : o + l ≤ text.length) :
    (spanContent text ⟨o, l⟩).length = l := by
  simp only [spanContent, List.length_take, List.length_drop]
  omega

/-- C1: refuted as stated.  At length 5, start 3, stop 1 (both bounds
non-negative, stop below start) unsigned_slice does not return the
claimed span_length max 0 (1 - 3) = 0: the signed difference -2 is cast
to size_t, producing 2^64 - 2, and offset + span_length far exceeds the
length, violating the View invariant. -/
theorem c1_unsigned_slice_wraps :
    unsigned_slice 5 3 1 = .ok ⟨3, 2 ^ 64 - 2⟩ ∧ 5 < 3 + (2 ^ 64 - 2) :=
  ⟨rfl, by decide⟩

/-- C2: refuted as stated.  sub on a five byte owner with start 3 and
stop 1 produces a subspan whose offset 3 plus stored length 2^64 - 2
exceeds the owner length 5, breaking the claimed invariant. -/
theorem c2_sub_invariant_violated :
    PyView.sub (.str [1, 2, 3, 4, 5]) 3 1
      = .ok (.subspanOf (.str [1, 2, 3, 4, 5]) ⟨3, 2 ^ 64 - 2⟩) ∧
    viewLen (.str [1, 2, 3, 4, 5]) < 3 + (2 ^ 64 - 2) :=
  ⟨rfl, by decide⟩

/-- C3 counterexample: a sub of a sub carries a parent reference to the
intermediate subspan, not to the ultimate root owner, so chains are not
flat. -/
theorem c3_counterexample :
    PyView.sub (.str [1, 2, 3]) 0 3 = .ok (.subspanOf (.str [1, 2, 3]) ⟨0, 3⟩) ∧
    PyView.sub (.subspanOf (.str [1, 2, 3]) ⟨0, 3⟩) 0 1
      = .ok (.subspanOf (.subspanOf (.str [1, 2, 3]) ⟨0, 3⟩) ⟨0, 1⟩) ∧
    parentOf (.subspanOf (.subspanOf (.str [1, 2, 3]) ⟨0, 3⟩) ⟨0, 1⟩)
      ≠ some (rootOwnerOf (.subspanOf (.str [1, 2, 3]) ⟨0, 3⟩)) ∧
    isRootOwner (.subspanOf (.str [1, 2, 3]) ⟨0, 3⟩) = false :=
  ⟨rfl, rfl, by decide, rfl⟩

/-- C3 amended: the subspan built by sub holds a shared reference to
the view it was called on (its immediate parent), so chains nest;
the root owner is still reachable transitively through the chain. -/
theorem c3_parent_is_immediate (v : PyView) (start stop : Int) (r : PyView)
    (h : PyView.sub v start stop = .ok r) :
    parentOf r = some v ∧ rootOwnerOf r = rootOwnerOf v := by
  unfold PyView.sub at h
  cases hu : unsigned_slice (viewLen v) start stop with
  | error e =>
    rw [hu] at h
    exact absurd h (by simp)
  | ok isp =>
    rw [hu] at h
    injection h with h2
    rw [← h2]
    exact ⟨rfl, rfl⟩

/-- Witness for the amended C3 theorem at a concrete input. -/
theorem c3_parent_is_immediate_witness :
    parentOf (.subspanOf (.str [7]) ⟨0, 1⟩) = some (.str [7]) ∧
    rootOwnerOf (.subspanOf (.str [7]) ⟨0, 1⟩) = rootOwnerOf (.str [7]) :=
  c3_parent_is_immediate (.str [7]) 0 1 (.subspanOf (.str [7]) ⟨0, 1⟩) rfl

/-- C4: refuted as stated.  Splitting the five byte text 1 9 2 9 3 on
separator 9 with maxsplit 2 does return two parts, but the final tail
part does not hold the remaining text with the embedded separator: the
tail is written at index count_separators = 2, which is past the end of
the two-slot vector (undefined behavior in the C++ source, a no-op in
the model), so the final part stays the default empty span. -/
theorem c4_splitlines_cap_bug :
    (splitlines [1, 9, 2, 9, 3] false 9 2).length = 2 ∧
    (splitlines [1, 9, 2, 9, 3] false 9 2).map (spanContent [1, 9, 2, 9, 3]) = [[1], []] ∧
    (splitlines [1, 9, 2, 9, 3] false 9 2).length ≤ count_char [1, 9, 2, 9, 3] 9 :=
  ⟨rfl, rfl, by decide⟩

/-- C5: refuted as stated.  On a two part collection, index -1 resolves
to the last part as claimed, but index 2 = length is accepted by
unsigned_offset (its guard only rejects idx strictly greater than the
length), so at reads the parts vector one past its end (undefined
behavior in the C++ source, the none result here) instead of raising
OutOfRange. -/
theorem c5_at_bug :
    spans_at [⟨0, 1⟩, ⟨1, 1⟩] (-1) = .ok (some ⟨1, 1⟩) ∧
    spans_at [⟨0, 1⟩, ⟨1, 1⟩] 2 = .ok none ∧
    unsigned_offset 2 2 = .ok 2 :=
  ⟨rfl, rfl, rfl⟩

/-- C6: without a part cap, both splitlines (on a byte) and split (on a
non-empty byte sequence) produce parts that, interleaved with the
separator, concatenate back to the original bytes. -/
theorem c6_reconstruction (text : List Byte) (c : Byte) (sep : List Byte) (maxsplit : Nat)
    (h1 : count_char text c + 1 ≤ maxsplit) (h2 : sep ≠ []) (h3 : text.length + 2 ≤ maxsplit) :
    List.intercalate [c] ((splitlines text false c maxsplit).map (spanContent text)) = text ∧
    List.intercalate sep ((split text sep maxsplit false).map (spanContent text)) = text :=
  ⟨splitlines_reconstruction text c maxsplit h1, split_reconstruction text sep maxsplit h2 h3⟩

/-- Witness for C6 at a concrete input. -/
theorem c6_reconstruction_witness :
    List.intercalate [9] ((splitlines [1, 9, 2] false 9 9).map (spanContent [1, 9, 2]))
      = [1, 9, 2] ∧
    List.intercalate [9] ((split [1, 9, 2] [9] 9 false).map (spanContent [1, 9, 2]))
      = [1, 9, 2] :=
  c6_reconstruction [1, 9, 2] 9 [9] 9 (by decide) (by decide) (by decide)

/-- C7 counterexample: with maxsplit left at its default size_max_k,
the fast-path guard of split is false, because the source compares
maxsplit against ssize_max_k, which differs from the default, so split
does not delegate to splitlines there. -/
theorem c7_counterexample :
    split_fast_path [9] size_max_k = false ∧ ¬ size_max_k = ssize_max_k :=
  ⟨rfl, by decide⟩

/-- C7 amended: at the default maxsplit size_max_k the guard fails and
the general path runs, but for a single byte separator it returns
exactly the spans splitlines would produce, so the two paths agree. -/
theorem c7_single_byte_equiv (text : List Byte) (c : Byte) (keep : Bool)
    (h : text.length + 2 ≤ size_max_k) :
    split text [c] size_max_k keep = splitlines text keep c size_max_k :=
  split_single_eq text c keep h

/-- Witness for the amended C7 theorem at a concrete input. -/
theorem c7_single_byte_equiv_witness :
    split [1, 9, 2, 9] [9] size_max_k false = splitlines [1, 9, 2, 9] false 9 size_max_k :=
  c7_single_byte_equiv [1, 9, 2, 9] 9 false (by decide)

/-- C8 counterexample: the text 1 1 1 ends exactly on an occurrence of
the separator 1 1 (the text equals 1 followed by the separator), yet
split returns parts with contents empty and then 1: the last part is
the non-empty span at offset 2, not an empty trailing part, because the
trailing occurrence overlaps the match consumed at offset 0. -/
theorem c8_counterexample :
    ([1, 1, 1] : List Byte) = [1] ++ [1, 1] ∧
    (split [1, 1, 1] [1, 1] size_max_k false).map (spanContent [1, 1, 1]) = [[], [1]] ∧
    (split [1, 1, 1] [1, 1] size_max_k false).getLast? = some ⟨2, 1⟩ :=
  ⟨rfl, rfl, rfl⟩

/-- C8 amended: when the trailing separator occurrence is one the left
to right non-overlapping scan actually consumes — in particular always
for a single byte separator — and the cap is not reached, split appends
one final empty trailing part. -/
theorem c8_trailing_empty (text t : List Byte) (c : Byte) (keep : Bool) (maxsplit : Nat)
    (hend : text = t ++ [c]) (hcap : text.length + 2 ≤ maxsplit) :
    (split text [c] maxsplit keep).getLast? = some ⟨0, 0⟩ ∧
    spanContent text ⟨0, 0⟩ = [] :=
  ⟨split_trailing_empty text t c keep maxsplit hend hcap, by simp [spanContent]⟩

/-- Witness for the amended C8 theorem at a concrete input. -/
theorem c8_trailing_empty_witness :
    (split [5, 9] [9] 9 false).getLast? = some ⟨0, 0⟩ ∧
    spanContent [5, 9] ⟨0, 0⟩ = [] :=
  c8_trailing_empty [5, 9] [5] 9 false 9 rfl (by decide)

/-- C9: for every view and all slice bounds, including negative ones,
an empty needle makes contains answer true, find answer 0 and count
answer 0, before any slice resolution takes place. -/
theorem c9_empty_needle (text : List Byte) (start stop : Int) (overlap : Bool) :
    py_contains text [] start stop = .ok true ∧
    py_find text [] start stop = .ok 0 ∧
    py_count text [] start stop overlap = .ok 0 :=
  ⟨rfl, rfl, rfl⟩

/-- C10: for a non-empty needle and a positive start bound with stop at
least start, find resolves the slice, returns the offset of the first
occurrence measured from the beginning of the resolved slice when the
needle occurs there, and returns -1 exactly when it does not occur. -/
theorem c10_find_relative (text needle : List Byte) (start stop : Int)
    (h0 : text.length < 2 ^ 64) (h1 : needle ≠ []) (h2 : 0 < start) (h3 : start ≤ stop) :
    ∃ isp : index_span_t, unsigned_slice text.length start stop = .ok isp ∧
      (¬ needle <:+: spanContent text ⟨isp.offset, isp.length⟩ →
          py_find text needle start stop = .ok (-1)) ∧
      (needle <:+: spanContent text ⟨isp.offset, isp.length⟩ →
          ∃ r : Nat, py_find text needle start stop = .ok (r : Int) ∧
            needle <+: (spanContent text ⟨isp.offset, isp.length⟩).drop r ∧
            ∀ j, j < r → ¬ needle <+: (spanContent text ⟨isp.offset, isp.length⟩).drop j) := by
  have hws := unsigned_slice_wf text.length start stop h0 (by omega) h3
  refine ⟨_, hws, ?_⟩
  apply py_find_ok text needle start stop _ h1 hws
  apply spanContent_length_of_le
  show (min start (text.length : Int)).toNat
      + ((min stop (text.length : Int)).toNat - (min start (text.length : Int)).toNat)
      ≤ text.length
  omega

/-- Witness for C10 at a concrete input. -/
theorem c10_find_relative_witness :
    ∃ isp : index_span_t, unsigned_slice (List.length [7, 8, 9, 8]) 1 4 = .ok isp ∧
      (¬ [8] <:+: spanContent [7, 8, 9, 8] ⟨isp.offset, isp.length⟩ →
          py_find [7, 8, 9, 8] [8] 1 4 = .ok (-1)) ∧
      ([8] <:+: spanContent [7, 8, 9, 8] ⟨isp.offset, isp.length⟩ →
          ∃ r : Nat, py_find [7, 8, 9, 8] [8] 1 4 = .ok (r : Int) ∧
            [8] <+: (spanContent [7, 8, 9, 8] ⟨isp.offset, isp.length⟩).drop r ∧
            ∀ j, j < r → ¬ [8] <+: (spanContent [7, 8, 9, 8] ⟨isp.offset, isp.length⟩).drop j) :=
  c10_find_relative [7, 8, 9, 8] [8] 1 4 (by decide) (by decide) (by decide) (by decide)
